import Mathlib

/-!
Verification of the annotated, path-tracking decode pipeline of
`sentry-types` (`src/protocol/annotated.rs`, `src/protocol/unexpected.rs`,
`src/protocol/paths.rs`, `src/protocol/canonical.rs`).

The source decodes self-describing documents through serde.  The shallow
embedding models the serde data model as the inductive `SValue`: one
constructor per visitor event that the underlying decoder can deliver
(`visit_bool`, `visit_i64`, `visit_u64`, `visit_f64`, `visit_str`,
`visit_none`, `visit_some`, `visit_unit`, `visit_newtype_struct`,
`visit_seq`, `visit_map`, `visit_bytes`).  Fallible decoders are functions
`SValue → Except String α`; serde's `D::Error` is modelled as `String`
(custom errors carry a message).  The float payload of `sf64` is not
carried: no code under verification inspects it, only its kind.
-/

/-- Serde data-model value: one constructor per visitor event of the
underlying decoder. -/
inductive SValue : Type
  | sbool (b : Bool)
  | si64 (n : Int)
  | su64 (n : Nat)
  | sf64
  | sstr (s : String)
  | snone
  | ssome (v : SValue)
  | sunit
  | snewtype (v : SValue)
  | sseq (elems : List SValue)
  | smap (entries : List (SValue × SValue))
  | sbytes (bs : List Nat)

/-- Unexpected type marker, from `unexpected.rs`:
`pub struct UnexpectedType(pub &'static str);`. -/
structure UnexpectedType : Type where
  tag : String
deriving DecidableEq

/-- Pure summary of the tag chosen by `UnexpectedVisitor` for each input
shape (`visit_bool → "boolean"`, `visit_i64`/`visit_u64`/`visit_f64 →
"integer"`, `visit_str → "string"`, `visit_none`/`visit_unit → "null"`,
`visit_seq → "array"`, `visit_map → "object"`, `visit_bytes → "bytes"`;
`visit_some` and `visit_newtype_struct` recurse into the payload). -/
def classify : SValue → String
  | .sbool _ => "boolean"
  | .si64 _ => "integer"
  | .su64 _ => "integer"
  | .sf64 => "integer"
  | .sstr _ => "string"
  | .snone => "null"
  | .ssome v => classify v
  | .sunit => "null"
  | .snewtype v => classify v
  | .sseq _ => "array"
  | .smap _ => "object"
  | .sbytes _ => "bytes"

mutual

/-- Embedding of `<UnexpectedType as Deserialize>::deserialize`
(`unexpected.rs`): `deserializer.deserialize_any(UnexpectedVisitor)`.
Composite shapes drain every child through the same deserializer before
producing their tag, exactly as `visit_seq`/`visit_map` gobble
`next_element`/`next_entry`; a child failure would propagate. -/
def unexpectedDeserialize : SValue → Except String UnexpectedType
  | .sbool _ => .ok ⟨"boolean"⟩
  | .si64 _ => .ok ⟨"integer"⟩
  | .su64 _ => .ok ⟨"integer"⟩
  | .sf64 => .ok ⟨"integer"⟩
  | .sstr _ => .ok ⟨"string"⟩
  | .snone => .ok ⟨"null"⟩
  | .ssome v => unexpectedDeserialize v
  | .sunit => .ok ⟨"null"⟩
  | .snewtype v => unexpectedDeserialize v
  | .sseq xs => do
      drainSeq xs
      pure ⟨"array"⟩
  | .smap kvs => do
      drainMap kvs
      pure ⟨"object"⟩
  | .sbytes _ => .ok ⟨"bytes"⟩

/-- The `while let Some(UnexpectedType(..)) = seq.next_element()?` loop of
`UnexpectedVisitor::visit_seq`: each element is deserialized as
`UnexpectedType` and discarded. -/
def drainSeq : List SValue → Except String Unit
  | [] => .ok ()
  | x :: xs => do
      _ ← unexpectedDeserialize x
      drainSeq xs

/-- The `while let Some((UnexpectedType(..), UnexpectedType(..))) =
map.next_entry()?` loop of `UnexpectedVisitor::visit_map`: each key and
value is deserialized as `UnexpectedType` and discarded. -/
def drainMap : List (SValue × SValue) → Except String Unit
  | [] => .ok ()
  | (k, v) :: kvs => do
      _ ← unexpectedDeserialize k
      _ ← unexpectedDeserialize v
      drainMap kvs

end

mutual

theorem unexpectedDeserialize_total :
    ∀ v : SValue, unexpectedDeserialize v = Except.ok ⟨classify v⟩
  | .sbool _ => rfl
  | .si64 _ => rfl
  | .su64 _ => rfl
  | .sf64 => rfl
  | .sstr _ => rfl
  | .snone => rfl
  | .ssome v => unexpectedDeserialize_total v
  | .sunit => rfl
  | .snewtype v => unexpectedDeserialize_total v
  | .sseq xs => by
      have h := drainSeq_total xs
      simp only [unexpectedDeserialize, h, classify]
      rfl
  | .smap kvs => by
      have h := drainMap_total kvs
      simp only [unexpectedDeserialize, h, classify]
      rfl
  | .sbytes _ => rfl

theorem drainSeq_total : ∀ xs : List SValue, drainSeq xs = Except.ok ()
  | [] => rfl
  | x :: xs => by
      have h1 := unexpectedDeserialize_total x
      have h2 := drainSeq_total xs
      simp only [drainSeq, h1, h2]
      rfl

theorem drainMap_total : ∀ kvs : List (SValue × SValue), drainMap kvs = Except.ok ()
  | [] => rfl
  | (k, v) :: kvs => by
      have h1 := unexpectedDeserialize_total k
      have h2 := unexpectedDeserialize_total v
      have h3 := drainMap_total kvs
      simp only [drainMap, h1, h2, h3]
      rfl

end

theorem classify_mem_closed_set :
    ∀ v : SValue,
      classify v ∈ ["boolean", "integer", "string", "null", "array", "object", "bytes"]
  | .sbool _ => by simp [classify]
  | .si64 _ => by simp [classify]
  | .su64 _ => by simp [classify]
  | .sf64 => by simp [classify]
  | .sstr _ => by simp [classify]
  | .snone => by simp [classify]
  | .ssome v => by simpa [classify] using classify_mem_closed_set v
  | .sunit => by simp [classify]
  | .snewtype v => by simpa [classify] using classify_mem_closed_set v
  | .sseq _ => by simp [classify]
  | .smap _ => by simp [classify]
  | .sbytes _ => by simp [classify]

/-- C4: deserializing `UnexpectedType` succeeds on every well-formed input,
maps each input kind to exactly one tag of the closed set
`{boolean, integer, string, null, array, object, bytes}` — booleans to
`"boolean"`; signed, unsigned and floating-point numbers to `"integer"`;
strings to `"string"`; none/unit to `"null"`; sequences to `"array"` after
recursively consuming every element; maps to `"object"` after recursively
consuming every entry; bytes to `"bytes"`. -/
theorem C4_classifier_total :
    (∀ v : SValue, unexpectedDeserialize v = Except.ok ⟨classify v⟩ ∧
      classify v ∈ ["boolean", "integer", "string", "null", "array", "object", "bytes"])
    ∧ (∀ b, classify (.sbool b) = "boolean")
    ∧ (∀ n, classify (.si64 n) = "integer")
    ∧ (∀ n, classify (.su64 n) = "integer")
    ∧ classify .sf64 = "integer"
    ∧ (∀ s, classify (.sstr s) = "string")
    ∧ classify .snone = "null"
    ∧ classify .sunit = "null"
    ∧ (∀ xs, classify (.sseq xs) = "array" ∧ drainSeq xs = Except.ok ())
    ∧ (∀ kvs, classify (.smap kvs) = "object" ∧ drainMap kvs = Except.ok ())
    ∧ (∀ bs, classify (.sbytes bs) = "bytes") := by
  refine ⟨fun v => ⟨unexpectedDeserialize_total v, classify_mem_closed_set v⟩, ?_⟩
  exact ⟨fun _ => rfl, fun _ => rfl, fun _ => rfl, rfl, fun _ => rfl, rfl, rfl,
      fun xs => ⟨rfl, drainSeq_total xs⟩, fun kvs => ⟨rfl, drainMap_total kvs⟩, fun _ => rfl⟩

/-- Per-field error record, from `annotated.rs` `mod meta`:
`pub struct ValueMeta { pub errors: Vec<ValueError>, pub original_length: Option<u64> }`
with `ValueError = String`. -/
structure ValueMeta : Type where
  errors : List String
  original_length : Option Nat
deriving DecidableEq

/-- Derived `Default` for `ValueMeta`: empty errors, no original length. -/
def ValueMeta.default : ValueMeta := ⟨[], none⟩

/-- Decode result wrapper, from `annotated.rs` `mod annotated`:
`pub struct Annotated<T> { pub value: Option<T>, pub meta: ValueMeta }`. -/
structure Annotated (T : Type) : Type where
  value : Option T
  meta : ValueMeta

/-- The untagged helper enum of `annotated.rs`:
`enum Maybe<T> { Valid(T), Invalid(UnexpectedType) }`. -/
inductive Maybe (T : Type) : Type
  | valid (value : T)
  | invalid (u : UnexpectedType)

/-- Embedding of `Annotated::error` (`annotated.rs` lines 128-138). -/
def Annotated.error {T : Type} (message : String) : Annotated T :=
  ⟨none, ⟨[message], none⟩⟩

/-- Embedding of `impl<T> From<T> for Annotated<T>` (`annotated.rs` lines 140-147). -/
def Annotated.ofValue {T : Type} (value : T) : Annotated T :=
  ⟨some value, ValueMeta.default⟩

/-- Embedding of `impl<T> From<Maybe<T>> for Annotated<T>` (`annotated.rs` lines 149-156):
`Valid(v)` becomes `Annotated::from(v)`, `Invalid(u)` becomes
`Annotated::error(format!("unexpected {}", u.0))`. -/
def Annotated.ofMaybe {T : Type} : Maybe T → Annotated T
  | .valid value => Annotated.ofValue value
  | .invalid u => Annotated.error ("unexpected " ++ u.tag)

/-- Embedding of `impl<T> Default for Annotated<T>` (`annotated.rs` lines 166-173):
value None with a defaulted (empty) meta. -/
def Annotated.default {T : Type} : Annotated T := ⟨none, ValueMeta.default⟩

/-- Deserialization of the untagged `Maybe<T>`: serde buffers the input and
first tries the `Valid(T)` variant, falling back to
`Invalid(UnexpectedType)` over the same input when `T` fails.  The target
type `T` is abstracted as its decoder `decT`. -/
def maybeDeserialize {T : Type} (decT : SValue → Except String T) (v : SValue) :
    Except String (Maybe T) :=
  match decT v with
  | .ok t => .ok (.valid t)
  | .error _ =>
    match unexpectedDeserialize v with
    | .ok u => .ok (.invalid u)
    | .error e => .error e

/-- Embedding of `impl Deserialize for Annotated<T>` (`annotated.rs` lines 158-165):
`Ok(Maybe::deserialize(deserializer)?.into())`. -/
def annotatedDeserialize {T : Type} (decT : SValue → Except String T) (v : SValue) :
    Except String (Annotated T) :=
  (maybeDeserialize decT v).map Annotated.ofMaybe

/-- The serde data-model decode of a plain `bool` target: only `visit_bool`
succeeds, every other shape is an invalid-type error. -/
def decodeBool : SValue → Except String Bool
  | .sbool b => .ok b
  | _ => .error "invalid type"

/-- Key lookup in the flattened field map a serde-derived struct visitor
consumes (first matching key wins). -/
def lookupKey : List (String × SValue) → String → Option SValue
  | [], _ => none
  | (k, v) :: rest, name => if k = name then some v else lookupKey rest name

/-- Decoding of one serde-derived struct field declared `#[serde(default)]`
(`annotated.rs` lines 175-191): a field present in the input map decodes
from its own value; an absent field takes the field type's `Default`. -/
def decodeStructField {A : Type} (kvs : List (String × SValue)) (name : String)
    (dec : SValue → Except String A) (dflt : A) : Except String A :=
  match lookupKey kvs name with
  | some v => dec v
  | none => .ok dflt

/-- Location in the input, from `paths.rs`:
`enum Path<'a> { Root, Seq{..}, Map{..}, Some{..}, NewtypeStruct{..}, NewtypeVariant{..} }`. -/
inductive DocPath : Type
  | root
  | seq (parent : DocPath) (index : Nat)
  | map (parent : DocPath) (key : String)
  | some (parent : DocPath)
  | newtypeStruct (parent : DocPath)
  | newtypeVariant (parent : DocPath)
deriving DecidableEq

/-- Embedding of `impl Display for Path` (`paths.rs` lines 54-76): the inner `Parent`
wrapper renders nothing for `Root` and `render(parent) + "."` otherwise;
`Root` renders `"."`, `Seq` appends the decimal index, `Map` the literal
key, and `Some`/`NewtypeStruct`/`NewtypeVariant` append a `"?"` marker. -/
def DocPath.render : DocPath → String
  | .root => "."
  | .seq .root index => Nat.repr index
  | .seq parent index => (parent.render ++ ".") ++ Nat.repr index
  | .map .root key => key
  | .map parent key => (parent.render ++ ".") ++ key
  | .some .root => "?"
  | .some parent => (parent.render ++ ".") ++ "?"
  | .newtypeStruct .root => "?"
  | .newtypeStruct parent => (parent.render ++ ".") ++ "?"
  | .newtypeVariant .root => "?"
  | .newtypeVariant parent => (parent.render ++ ".") ++ "?"

/-- Decoding a field of type `Annotated<T>` located at document position
`p`.  The `Deserialize` impl for `Annotated<T>` (`annotated.rs` lines
158-165) receives only the field's deserializer; no position information
reaches it, so the decode is the position-independent
`annotatedDeserialize` regardless of `p`. -/
def decodeAnnotatedAt {T : Type} (p : DocPath) (decT : SValue → Except String T)
    (v : SValue) : Except String (Annotated T) :=
  annotatedDeserialize decT v

/-- Modelled from the spec's words (spec section 3, "Annotated<T>"), for
comparison with the source struct: the spec describes a third field
`path : Option<String>` capturing the rendered path at decode time.  The
source struct `Annotated` (`annotated.rs` lines 122-126) has no such
field. -/
structure AnnotatedSpec (T : Type) : Type where
  value : Option T
  meta : ValueMeta
  path : Option String

/-- C1: for every target type `T` (abstracted as its decoder) and every
document value whose shape does not match `T`, deserializing an
`Annotated<T>` field from it succeeds with `value = None` and
`meta.errors = ["unexpected " ++ classification]`, where the
classification is the tag the `UnexpectedType` classifier produces for
the observed shape; and the decode of any sibling field of the enclosing
structure only reads that sibling's own entry, so it is unaffected by the
mismatched entry. -/
theorem C1_mismatch_yields_unexpected_error {T : Type}
    (decT : SValue → Except String T) (v : SValue)
    (h : ∃ e, decT v = Except.error e) :
    annotatedDeserialize decT v =
      Except.ok ⟨none, ⟨["unexpected " ++ classify v], none⟩⟩
    ∧ ∀ (kvs : List (String × SValue)) (name fld : String) (U : Type)
        (decU : SValue → Except String U) (dflt : U), fld ≠ name →
        decodeStructField ((name, v) :: kvs) fld decU dflt
          = decodeStructField kvs fld decU dflt := by
  obtain ⟨e, he⟩ := h
  constructor
  · simp [annotatedDeserialize, maybeDeserialize, he, unexpectedDeserialize_total v,
      Annotated.ofMaybe, Annotated.error, Except.map]
  · intro kvs name fld U decU dflt hne
    simp [decodeStructField, lookupKey, Ne.symm hne]

theorem C1_witness :
    annotatedDeserialize (fun _ => (Except.error "strict" : Except String Unit))
        (.sbool true)
      = Except.ok ⟨none, ⟨["unexpected boolean"], none⟩⟩
    ∧ decodeStructField [("a", SValue.sbool true), ("b", SValue.su64 1)] "b"
        (fun _ => (Except.ok 0 : Except String Nat)) 7
      = decodeStructField [("b", SValue.su64 1)] "b"
        (fun _ => (Except.ok 0 : Except String Nat)) 7 := by
  have h := C1_mismatch_yields_unexpected_error
    (fun _ => (Except.error "strict" : Except String Unit)) (.sbool true) ⟨"strict", rfl⟩
  exact ⟨h.1, h.2 [("b", SValue.su64 1)] "a" "b" Nat (fun _ => Except.ok 0) 7 (by decide)⟩

/-- C2 counterexample: the claim includes `Default::default` among the
constructors maintaining "value = None implies errors non-empty", but
`impl Default for Annotated<T>` (`annotated.rs` lines 166-173) produces
`value = None` together with empty `meta.errors`. -/
theorem C2_counterexample :
    (Annotated.default : Annotated Bool).value = none
    ∧ (Annotated.default : Annotated Bool).meta.errors = [] :=
  ⟨rfl, rfl⟩

/-- C2 amended: for every `Annotated<T>` produced by `From<T>`,
`Annotated::error`, or deserialization, if `value` is `None` then
`meta.errors` is non-empty; `Default::default` is the exception, producing
`value = None` with empty errors. -/
theorem C2_amended_absence_has_reason :
    (∀ (T : Type) (t : T), (Annotated.ofValue t).value ≠ none)
    ∧ (∀ (T : Type) (msg : String),
        (Annotated.error msg : Annotated T).value = none
        ∧ (Annotated.error msg : Annotated T).meta.errors ≠ [])
    ∧ (∀ (T : Type) (decT : SValue → Except String T) (v : SValue) (a : Annotated T),
        annotatedDeserialize decT v = Except.ok a → a.value = none →
          a.meta.errors ≠ [])
    ∧ ((Annotated.default : Annotated Unit).value = none
        ∧ (Annotated.default : Annotated Unit).meta.errors = []) := by
  refine ⟨fun T t => by simp [Annotated.ofValue], fun T msg => ⟨rfl, by simp [Annotated.error]⟩,
    ?_, rfl, rfl⟩
  intro T decT v a hok hnone
  unfold annotatedDeserialize maybeDeserialize at hok
  cases hdec : decT v with
  | ok t =>
    rw [hdec] at hok
    simp only [Except.map] at hok
    cases hok
    simp [Annotated.ofMaybe, Annotated.ofValue] at hnone
  | error e =>
    rw [hdec, unexpectedDeserialize_total v] at hok
    simp only [Except.map] at hok
    cases hok
    simp [Annotated.ofMaybe, Annotated.error]

theorem C2_witness :
    (⟨none, ⟨["unexpected boolean"], none⟩⟩ : Annotated Unit).meta.errors ≠ [] :=
  C2_amended_absence_has_reason.2.2.1 Unit (fun _ => Except.error "strict") (.sbool true)
    ⟨none, ⟨["unexpected boolean"], none⟩⟩ rfl rfl

/-- C3 counterexample: no projection of the decoded `Annotated` value can
recover the rendered current path, because the decode result of an
`Annotated` field is identical at every document position (the struct has
no path field, `annotated.rs` lines 122-126): a single decoded value would
have to map to the two distinct renderings `"."` and `"0"`. -/
theorem C3_counterexample :
    ¬ ∃ pathOf : Annotated Bool → Option String,
        ∀ (p : DocPath) (a : Annotated Bool),
          decodeAnnotatedAt p decodeBool (.sbool true) = Except.ok a →
            pathOf a = some p.render := by
  rintro ⟨f, hf⟩
  have h1 := hf .root (Annotated.ofValue true) rfl
  have h2 := hf (.seq .root 0) (Annotated.ofValue true) rfl
  rw [h1] at h2
  have h3 := Option.some.inj h2
  exact (by decide : DocPath.render .root ≠ DocPath.render (.seq .root 0)) h3

/-- C3 amended: `Annotated<T>` carries only `value` and `meta` — no path
component.  Decoding an `Annotated` field is identical at every position;
on success it holds `value = Some(decoded)` with default (empty) meta, and
on a shape mismatch it holds `value = None` with the classification
error.  No captured path string is available on the value itself. -/
theorem C3_amended_no_path_component {T : Type} (p q : DocPath)
    (decT : SValue → Except String T) (v : SValue) :
    decodeAnnotatedAt p decT v = decodeAnnotatedAt q decT v
    ∧ (∀ t, decT v = Except.ok t →
        decodeAnnotatedAt p decT v = Except.ok (Annotated.ofValue t))
    ∧ (∀ e, decT v = Except.error e →
        decodeAnnotatedAt p decT v
          = Except.ok (Annotated.error ("unexpected " ++ classify v))) := by
  refine ⟨rfl, fun t ht => ?_, fun e he => ?_⟩
  · simp [decodeAnnotatedAt, annotatedDeserialize, maybeDeserialize, ht, Annotated.ofMaybe,
      Except.map]
  · simp [decodeAnnotatedAt, annotatedDeserialize, maybeDeserialize, he,
      unexpectedDeserialize_total v, Annotated.ofMaybe, Except.map]

theorem C3_witness :
    decodeAnnotatedAt (.map .root "k") decodeBool (.sbool true)
      = Except.ok (Annotated.ofValue true) :=
  (C3_amended_no_path_component (.map .root "k") .root decodeBool (.sbool true)).2.1 true rfl

/-- C6: rendering follows the grammar — the root renders as the single
token `"."`; a non-root path renders as its parent's rendering followed by
`"."` (omitted when the parent is the root) followed by the local segment,
where a sequence segment is the decimal index, a map segment is the
literal key, and the optional/newtype/variant segment is the `"?"`
marker. -/
theorem C6_render_grammar :
    DocPath.render .root = "."
    ∧ (∀ p i, DocPath.render (.seq p i)
        = (if p = .root then "" else p.render ++ ".") ++ Nat.repr i)
    ∧ (∀ p k, DocPath.render (.map p k)
        = (if p = .root then "" else p.render ++ ".") ++ k)
    ∧ (∀ p, DocPath.render (.some p)
        = (if p = .root then "" else p.render ++ ".") ++ "?")
    ∧ (∀ p, DocPath.render (.newtypeStruct p)
        = (if p = .root then "" else p.render ++ ".") ++ "?")
    ∧ (∀ p, DocPath.render (.newtypeVariant p)
        = (if p = .root then "" else p.render ++ ".") ++ "?") := by
  refine ⟨rfl, fun p i => ?_, fun p k => ?_, fun p => ?_, fun p => ?_, fun p => ?_⟩ <;>
    cases p <;> simp [DocPath.render]

/-- C10: a struct field of type `Annotated<T>` declared with a serde
default decodes, when the field is absent from the input map, to
`Annotated::default()` — `value = None` with entirely empty meta, so the
absence is recorded without any error and is indistinguishable from an
error-free missing value. -/
theorem C10_absent_field_is_default {T : Type} (kvs : List (String × SValue))
    (name : String) (decT : SValue → Except String (Annotated T))
    (h : lookupKey kvs name = none) :
    decodeStructField kvs name decT Annotated.default = Except.ok Annotated.default
    ∧ (Annotated.default : Annotated T).value = none
    ∧ (Annotated.default : Annotated T).meta = ValueMeta.default
    ∧ (Annotated.default : Annotated T).meta.errors = [] := by
  refine ⟨?_, rfl, rfl, rfl⟩
  simp [decodeStructField, h]

theorem C10_witness :
    decodeStructField [("x", SValue.sbool true)] "y"
      (annotatedDeserialize decodeBool) Annotated.default
      = Except.ok (Annotated.default : Annotated Bool) :=
  (C10_absent_field_is_default [("x", SValue.sbool true)] "y"
    (annotatedDeserialize decodeBool) rfl).1

/-- The `CaptureKey` visitor (`paths.rs` lines 1011-1033): only
`visit_str`, `visit_borrowed_str` and `visit_string` store the just-decoded
key string into the capture slot; every other visit forwards without
writing, leaving the slot empty (it was cleared by the previous value's
`take()`). -/
def captureKeyVisit : SValue → Option String
  | .sstr s => Option.some s
  | _ => Option.none

/-- Embedding of `MapAccess::key` (`paths.rs` lines 1205-1211):
`self.key.take().ok_or_else(|| E::custom("non-string key"))`. -/
def mapAccessKey (st : Option String) : Except String String × Option String :=
  match st with
  | Option.none => (.error "non-string key", Option.none)
  | Option.some k => (.ok k, Option.none)

/-- Embedding of `MapAccess::next_value_seed` (`paths.rs` lines 1227-1237): obtains the
captured key via `MapAccess::key` — failing with the dedicated
"non-string key" error when the key was not decoded as a string — and then
decodes the value through `TrackedSeed` with the path extended by
`Map { parent, key }`.  The delegate's result is returned unchanged. -/
def nextValueSeed {A : Type} (parent : DocPath) (st : Option String)
    (delegate : DocPath → Except String A) : Except String A × Option String :=
  match mapAccessKey st with
  | (.error e, st2) => (.error e, st2)
  | (.ok k, st2) => (delegate (.map parent k), st2)

/-- Embedding of `SeqAccess::next_element_seed` (`paths.rs` lines 1168-1179): the
element is decoded through `TrackedSeed` with the path extended by
`Seq { parent, index }` and the index is incremented afterwards; the
delegate's result is returned unchanged. -/
def nextElementSeed {A : Type} (parent : DocPath) (index : Nat)
    (delegate : DocPath → Except String A) : Except String A × Nat :=
  (delegate (.seq parent index), index + 1)

/-- Scalar, identifier and ignored-any forwarding (`paths.rs` lines
80-341): every `deserialize_*` method calls the underlying decoder with a
wrapped visitor whose scalar visits delegate unchanged, so the middleware
returns exactly the underlying decoder's result. -/
def forwardScalar {A : Type} (underlying : Except String A) : Except String A :=
  underlying

/-- C7: in the path-tracking middleware, a map key that is not decoded as
a string leaves the capture slot empty and the decode of the corresponding
value fails with the dedicated "non-string key" error — a message distinct
from every "unexpected <kind>" leaf classification; when the key is
decoded as a string `s`, the value is decoded with the path extended by
`Map { parent, s }` holding exactly the captured key string. -/
theorem C7_map_key_capture {A : Type} (parent : DocPath) (keyEvent : SValue)
    (delegate : DocPath → Except String A) :
    (captureKeyVisit keyEvent = Option.none →
      (nextValueSeed parent (captureKeyVisit keyEvent) delegate).1
        = Except.error "non-string key")
    ∧ (∀ s, captureKeyVisit keyEvent = Option.some s →
        (nextValueSeed parent (captureKeyVisit keyEvent) delegate).1
          = delegate (.map parent s))
    ∧ (∀ s, captureKeyVisit (.sstr s) = Option.some s)
    ∧ (∀ v : SValue, "non-string key" ≠ "unexpected " ++ classify v) := by
  refine ⟨fun h => by simp [nextValueSeed, mapAccessKey, h],
    fun s h => by simp [nextValueSeed, mapAccessKey, h],
    fun s => rfl, fun v h => ?_⟩
  have hd : ("non-string key".data).head? = (("unexpected " ++ classify v).data).head? :=
    congrArg (fun l => l.head?) (congrArg String.data h)
  rw [String.data_append] at hd
  have h1 : ("non-string key".data).head? = Option.some 'n' := rfl
  have h2 : (("unexpected ").data ++ (classify v).data).head? = Option.some 'u' := rfl
  rw [h1, h2] at hd
  exact absurd (Option.some.inj hd) (by decide)

theorem C7_witness :
    (nextValueSeed .root (captureKeyVisit (.su64 42))
        (fun p => Except.ok p.render)).1
      = Except.error "non-string key"
    ∧ (nextValueSeed .root (captureKeyVisit (.sstr "k"))
        (fun p => Except.ok p.render)).1
      = Except.ok (DocPath.render (.map .root "k")) :=
  ⟨(C7_map_key_capture .root (.su64 42) (fun p => Except.ok p.render)).1 rfl,
   (C7_map_key_capture .root (.sstr "k") (fun p => Except.ok p.render)).2.1 "k" rfl⟩

/-- C8 counterexample: the claim says the middleware returns exactly what
the underlying decoder returns and introduces no error of its own at any
structural event; but at the map-value event after a non-captured key the
middleware fails with its own "non-string key" error even though the
underlying delegate succeeds. -/
theorem C8_counterexample :
    (nextValueSeed .root Option.none (fun _ => Except.ok true)).1
      = Except.error "non-string key"
    ∧ (Except.error "non-string key" : Except String Bool) ≠ Except.ok true :=
  ⟨rfl, fun h => Except.noConfusion h⟩

/-- C8 amended: the middleware forwards every scalar decode request and
every structural event's delegate result unchanged — sequence elements and
string-keyed map values included — and introduces no error of its own
except at one event: decoding a map value whose key was not captured as a
string fails with the middleware's "non-string key" error. -/
theorem C8_amended_transparent_forwarding :
    (∀ (A : Type) (r : Except String A), forwardScalar r = r)
    ∧ (∀ (A : Type) (parent : DocPath) (i : Nat)
        (delegate : DocPath → Except String A),
        (nextElementSeed parent i delegate).1 = delegate (.seq parent i)
        ∧ (nextElementSeed parent i delegate).2 = i + 1)
    ∧ (∀ (A : Type) (parent : DocPath) (k : String)
        (delegate : DocPath → Except String A),
        (nextValueSeed parent (Option.some k) delegate).1 = delegate (.map parent k))
    ∧ (∀ (A : Type) (parent : DocPath) (delegate : DocPath → Except String A),
        (nextValueSeed parent Option.none delegate).1
          = Except.error "non-string key") :=
  ⟨fun _ _ => rfl, fun _ _ _ _ => ⟨rfl, rfl⟩, fun _ _ _ _ => rfl, fun _ _ _ => rfl⟩

/-- Metadata side-table from `annotated.rs` `mod annotated`:
`pub type EventMeta = Map<String, ValueMeta>` with `Map = BTreeMap`.
Modelled as an association list with at most one binding per key
(BTreeMap's key ordering does not affect insert/lookup semantics). -/
abbrev EventMeta : Type := List (String × ValueMeta)

/-- Model of `BTreeMap::insert` on the association-list table: replace the value at
an existing key, otherwise add the binding. -/
def emInsert : EventMeta → String → ValueMeta → EventMeta
  | [], key, meta => [(key, meta)]
  | (k, m) :: rest, key, meta =>
      if k = key then (key, meta) :: rest else (k, m) :: emInsert rest key meta

/-- Model of `BTreeMap::get` on the association-list table. -/
def emLookup : EventMeta → String → Option ValueMeta
  | [], _ => Option.none
  | (k, m) :: rest, key => if k = key then Option.some m else emLookup rest key

/-- Decode of a `u64` target from the serde data model (`visit_u64`, plus
in-range `visit_i64` as serde's u64 impl accepts). -/
def decodeU64 : SValue → Except String Nat
  | .su64 n => .ok n
  | .si64 n => if 0 ≤ n then .ok n.toNat else .error "invalid value"
  | _ => .error "invalid type"

/-- Element loop of the `Vec<String>` decode. -/
def decodeStringListElems : List SValue → Except String (List String)
  | [] => .ok []
  | .sstr s :: rest => (decodeStringListElems rest).map (fun tl => s :: tl)
  | _ :: _ => .error "invalid type"

/-- Decode of a `Vec<String>` target (the `errors` field of `ValueMeta`). -/
def decodeStringList : SValue → Except String (List String)
  | .sseq xs => decodeStringListElems xs
  | _ => .error "invalid type"

/-- Decode of an `Option<u64>` target: null is `None`, a payload decodes
as `u64`. -/
def decodeOptU64 : SValue → Except String (Option Nat)
  | .snone => .ok Option.none
  | .sunit => .ok Option.none
  | .ssome v => (decodeU64 v).map Option.some
  | v => (decodeU64 v).map Option.some

/-- Field loop of the derived `Deserialize` for `ValueMeta`
(`#[derive(Deserialize)]` on `ValueMeta`, `annotated.rs` lines 41-46):
entries are consumed in order; `errors` (required, `Vec<String>`) and
`original_length` (an `Option`, defaulting to `None` when absent) fill
their slots, duplicates are an error, unknown string keys are ignored. -/
def valueMetaFromEntries :
    List (SValue × SValue) → Option (List String) → Option (Option Nat) →
      Except String ValueMeta
  | [], Option.none, _ => .error "missing field errors"
  | [], Option.some errs, len? =>
      .ok ⟨errs, match len? with | Option.none => Option.none | Option.some l => l⟩
  | (k, v) :: rest, errs?, len? =>
      match k with
      | .sstr "errors" =>
          match errs? with
          | Option.some _ => .error "duplicate field errors"
          | Option.none => do
              let errs ← decodeStringList v
              valueMetaFromEntries rest (Option.some errs) len?
      | .sstr "original_length" =>
          match len? with
          | Option.some _ => .error "duplicate field original_length"
          | Option.none => do
              let l ← decodeOptU64 v
              valueMetaFromEntries rest errs? (Option.some l)
      | .sstr _ => valueMetaFromEntries rest errs? len?
      | _ => .error "invalid type"

/-- Derived `Deserialize` for `ValueMeta`: a map of named fields. -/
def valueMetaDeserialize : SValue → Except String ValueMeta
  | .smap kvs => valueMetaFromEntries kvs Option.none Option.none
  | _ => .error "invalid type"

/-- Entry loop of the `Deserialize` for `EventMeta` =
`BTreeMap<String, ValueMeta>`: each key decodes as a `String`, each value
as a `ValueMeta`, inserted in input order. -/
def eventMetaFromEntries : List (SValue × SValue) → EventMeta → Except String EventMeta
  | [], acc => .ok acc
  | (k, v) :: rest, acc =>
      match k with
      | .sstr s => do
          let meta ← valueMetaDeserialize v
          eventMetaFromEntries rest (emInsert acc s meta)
      | _ => .error "invalid type"

/-- Embedding of `Deserialize` for the `EventMeta` map. -/
def eventMetaDeserialize : SValue → Except String EventMeta
  | .smap kvs => eventMetaFromEntries kvs []
  | _ => .error "invalid type"

/-- The helper struct of `annotated.rs` lines 195-198:
`pub struct EventMetaHelper { pub metadata: EventMeta }`. -/
structure EventMetaHelper : Type where
  metadata : EventMeta

/-- Field loop of the derived `Deserialize` for `EventMetaHelper`: reads
the required `metadata` field, ignoring unknown string keys. -/
def eventMetaHelperFromEntries :
    List (SValue × SValue) → Option EventMeta → Except String EventMetaHelper
  | [], Option.none => .error "missing field metadata"
  | [], Option.some m => .ok ⟨m⟩
  | (k, v) :: rest, acc =>
      match k with
      | .sstr "metadata" =>
          match acc with
          | Option.some _ => .error "duplicate field metadata"
          | Option.none => do
              let m ← eventMetaDeserialize v
              eventMetaHelperFromEntries rest (Option.some m)
      | .sstr _ => eventMetaHelperFromEntries rest acc
      | _ => .error "invalid type"

/-- Derived `Deserialize` for `EventMetaHelper`. -/
def eventMetaHelperDeserialize : SValue → Except String EventMetaHelper
  | .smap kvs => eventMetaHelperFromEntries kvs Option.none
  | _ => .error "invalid type"

/-- C9: populating any side-table with an entry at exactly the string
rendered from a path and looking up that rendered string retrieves exactly
that entry; in particular the Scenario D document, whose `metadata` field
maps `"breadcrumbs.values.0"` — the rendering of the path
`Seq { Map { Map { Root, "breadcrumbs" }, "values" }, 0 }` — to
`{ "errors": ["original error"] }`, parses to a table whose lookup at
`"breadcrumbs.values.0"` returns exactly the error list
`["original error"]`. -/
theorem C9_side_table_round_trip :
    (∀ (m : EventMeta) (p : DocPath) (meta : ValueMeta),
      emLookup (emInsert m p.render meta) p.render = Option.some meta)
    ∧ DocPath.render (.seq (.map (.map .root "breadcrumbs") "values") 0)
        = "breadcrumbs.values.0"
    ∧ eventMetaHelperDeserialize
        (.smap [(.sstr "event_id", .sstr "864ee97977bf43ac96d74f7486d138ab"),
                (.sstr "breadcrumbs", .smap [(.sstr "values", .sseq [.sbool false])]),
                (.sstr "metadata", .smap [(.sstr "breadcrumbs.values.0",
                   .smap [(.sstr "errors", .sseq [.sstr "original error"])])])])
        = Except.ok ⟨[("breadcrumbs.values.0", ⟨["original error"], Option.none⟩)]⟩
    ∧ emLookup [("breadcrumbs.values.0", (⟨["original error"], Option.none⟩ : ValueMeta))]
        "breadcrumbs.values.0" = Option.some ⟨["original error"], Option.none⟩ := by
  refine ⟨?_, by decide, by rfl, by rfl⟩
  intro m p meta
  induction m with
  | nil => simp [emInsert, emLookup]
  | cons kv rest ih =>
      obtain ⟨k, mv⟩ := kv
      by_cases h : k = p.render
      · simp [emInsert, emLookup, h]
      · simp [emInsert, emLookup, h, ih]

theorem digitChar_ne_dot (k : Nat) : Nat.digitChar k ≠ '.' := by
  by_cases h : k < 16
  · interval_cases k <;> decide
  · unfold Nat.digitChar
    repeat rw [if_neg (by omega)]
    decide

theorem digitChar_inj_below_ten :
    ∀ a < 10, ∀ b < 10, Nat.digitChar a = Nat.digitChar b → a = b := by
  decide

theorem toDigitsCore_shift (fuel : Nat) :
    ∀ (n : Nat) (ds : List Char),
      Nat.toDigitsCore 10 fuel n ds = Nat.toDigitsCore 10 fuel n [] ++ ds := by
  induction fuel with
  | zero => intro n ds; rfl
  | succ f ih =>
    intro n ds
    unfold Nat.toDigitsCore
    by_cases h : n / 10 = 0
    · simp [h]
    · simp only [h, if_false]
      rw [ih (n / 10) (Nat.digitChar (n % 10) :: ds), ih (n / 10) [Nat.digitChar (n % 10)]]
      simp

theorem toDigitsCore_fuel_irrelevant (n : Nat) :
    ∀ f1 f2 : Nat, n < f1 → n < f2 →
      Nat.toDigitsCore 10 f1 n [] = Nat.toDigitsCore 10 f2 n [] := by
  induction n using Nat.strong_induction_on with
  | _ n ih =>
    intro f1 f2 h1 h2
    cases f1 with
    | zero => omega
    | succ g1 =>
      cases f2 with
      | zero => omega
      | succ g2 =>
        unfold Nat.toDigitsCore
        by_cases h : n / 10 = 0
        · simp [h]
        · simp only [h, if_false]
          rw [toDigitsCore_shift g1, toDigitsCore_shift g2]
          have hpos : 0 < n := by
            rcases Nat.eq_zero_or_pos n with h0 | h0
            · exact absurd (by simp [h0]) h
            · exact h0
          have hlt : n / 10 < n := Nat.div_lt_self hpos (by norm_num)
          rw [ih (n / 10) hlt g1 g2 (by omega) (by omega)]

theorem toDigitsCore_succ (f n : Nat) :
    Nat.toDigitsCore 10 (f + 1) n [] =
      if n / 10 = 0 then [Nat.digitChar (n % 10)]
      else Nat.toDigitsCore 10 f (n / 10) [] ++ [Nat.digitChar (n % 10)] := by
  conv_lhs => unfold Nat.toDigitsCore
  by_cases h : n / 10 = 0
  · simp [h]
  · simp only [h, if_false, reduceIte]
    rw [toDigitsCore_shift]

theorem toDigits_recurrence (n : Nat) :
    Nat.toDigits 10 n =
      if n < 10 then [Nat.digitChar n]
      else Nat.toDigits 10 (n / 10) ++ [Nat.digitChar (n % 10)] := by
  by_cases h : n < 10
  · have h0 : n / 10 = 0 := Nat.div_eq_of_lt h
    unfold Nat.toDigits
    rw [toDigitsCore_succ, if_pos h0, if_pos h, Nat.mod_eq_of_lt h]
  · have h0 : n / 10 ≠ 0 := by
      intro hc
      exact h (by omega)
    unfold Nat.toDigits
    rw [toDigitsCore_succ, if_neg h0, if_neg h]
    have hlt : n / 10 < n := Nat.div_lt_self (by omega) (by norm_num)
    rw [toDigitsCore_fuel_irrelevant (n / 10) n (n / 10 + 1) hlt (Nat.lt_succ_self _)]

theorem toDigits_ne_nil (n : Nat) : Nat.toDigits 10 n ≠ [] := by
  rw [toDigits_recurrence]
  by_cases h : n < 10 <;> simp [h]

theorem toDigits_no_dot (n : Nat) : '.' ∉ Nat.toDigits 10 n := by
  induction n using Nat.strong_induction_on with
  | _ n ih =>
    rw [toDigits_recurrence]
    by_cases h : n < 10
    · simp only [h, reduceIte, List.mem_singleton]
      exact fun hc => digitChar_ne_dot n hc.symm
    · simp only [h, reduceIte, List.mem_append, List.mem_singleton]
      rintro (hc | hc)
      · have hlt : n / 10 < n := Nat.div_lt_self (by omega) (by norm_num)
        exact ih (n / 10) hlt hc
      · exact digitChar_ne_dot (n % 10) hc.symm

theorem toDigits_inj (n : Nat) :
    ∀ m : Nat, Nat.toDigits 10 n = Nat.toDigits 10 m → n = m := by
  induction n using Nat.strong_induction_on with
  | _ n ih =>
    intro m h
    rw [toDigits_recurrence n, toDigits_recurrence m] at h
    by_cases hn : n < 10 <;> by_cases hm : m < 10
    · simp only [hn, hm, reduceIte, List.cons.injEq, and_true] at h
      exact digitChar_inj_below_ten n hn m hm h
    · exfalso
      simp only [hn, hm, reduceIte] at h
      have hlen := congrArg List.length h
      simp only [List.length_append, List.length_singleton] at hlen
      exact toDigits_ne_nil (m / 10) (List.length_eq_zero.mp (by omega))
    · exfalso
      simp only [hn, hm, reduceIte] at h
      have hlen := congrArg List.length h
      simp only [List.length_append, List.length_singleton] at hlen
      exact toDigits_ne_nil (n / 10) (List.length_eq_zero.mp (by omega))
    · simp only [hn, hm, reduceIte] at h
      have hsplit := List.append_inj' h (by rfl)
      have hdiv : n / 10 = m / 10 := by
        have hlt : n / 10 < n := Nat.div_lt_self (by omega) (by norm_num)
        exact ih (n / 10) hlt (m / 10) hsplit.1
      have hmod : n % 10 = m % 10 := by
        have hc := List.cons.injEq .. ▸ hsplit.2
        have := digitChar_inj_below_ten (n % 10) (Nat.mod_lt n (by norm_num))
          (m % 10) (Nat.mod_lt m (by norm_num))
        apply this
        simpa using hsplit.2
      omega

theorem repr_data_eq_toDigits (n : Nat) : (Nat.repr n).data = Nat.toDigits 10 n := rfl

theorem repr_inj (n m : Nat) (h : Nat.repr n = Nat.repr m) : n = m :=
  toDigits_inj n m (congrArg String.data h)

/-- Segment list of a path, root-to-leaf, as character lists: the pieces
the renderer joins with the `'.'` separator (`Seq` contributes the decimal
index, `Map` the key, the unwrap variants the `"?"` marker). -/
def charSegs : DocPath → List (List Char)
  | .root => []
  | .seq p i => charSegs p ++ [(Nat.repr i).data]
  | .map p k => charSegs p ++ [k.data]
  | .some p => charSegs p ++ [['?']]
  | .newtypeStruct p => charSegs p ++ [['?']]
  | .newtypeVariant p => charSegs p ++ [['?']]

/-- Join of segments with the `'.'` separator, as the renderer produces. -/
def joinSegs : List (List Char) → List Char
  | [] => []
  | [s] => s
  | s :: rest => s ++ '.' :: joinSegs rest

theorem joinSegs_cons (s : List Char) (rest : List (List Char)) :
    joinSegs (s :: rest) = s ++ (if rest = [] then [] else '.' :: joinSegs rest) := by
  cases rest <;> simp [joinSegs]

theorem joinSegs_append_singleton (a : List (List Char)) (x : List Char) :
    joinSegs (a ++ [x]) = (if a = [] then [] else joinSegs a ++ ['.']) ++ x := by
  induction a with
  | nil => simp [joinSegs]
  | cons s a2 ih =>
    cases a2 with
    | nil => simp [joinSegs]
    | cons t a3 =>
      have hne : (t :: a3) ++ [x] ≠ ([] : List (List Char)) := by simp
      calc joinSegs ((s :: t :: a3) ++ [x])
          = s ++ '.' :: joinSegs ((t :: a3) ++ [x]) := by
            rw [List.cons_append, joinSegs_cons, if_neg hne]
        _ = s ++ '.' :: ((joinSegs (t :: a3) ++ ['.']) ++ x) := by
            rw [ih, if_neg (by simp)]
        _ = (joinSegs (s :: t :: a3) ++ ['.']) ++ x := by
            simp [joinSegs, List.append_assoc]

theorem charSegs_eq_nil (p : DocPath) : charSegs p = [] ↔ p = .root := by
  cases p <;> simp [charSegs]

theorem string_mk_eq (s t : String) (h : s.data = t.data) : s = t := by
  cases s
  cases t
  exact congrArg String.mk h

theorem render_step (q : DocPath) (hq : (DocPath.render q).data = joinSegs (charSegs q))
    (hne : charSegs q ≠ []) (seg : String) :
    ((DocPath.render q ++ ".") ++ seg).data = joinSegs (charSegs q ++ [seg.data]) := by
  rw [String.data_append, String.data_append, hq, joinSegs_append_singleton, if_neg hne]

theorem render_data :
    ∀ p : DocPath, p ≠ .root → (DocPath.render p).data = joinSegs (charSegs p)
  | .root => fun h => absurd rfl h
  | .seq parent i => fun _ => by
      cases parent <;>
        first
          | rfl
          | exact render_step _ (render_data _ (by simp)) (by simp [charSegs_eq_nil]) _
  | .map parent k => fun _ => by
      cases parent <;>
        first
          | rfl
          | exact render_step _ (render_data _ (by simp)) (by simp [charSegs_eq_nil]) _
  | .some parent => fun _ => by
      cases parent <;>
        first
          | rfl
          | exact render_step _ (render_data _ (by simp)) (by simp [charSegs_eq_nil]) _
  | .newtypeStruct parent => fun _ => by
      cases parent <;>
        first
          | rfl
          | exact render_step _ (render_data _ (by simp)) (by simp [charSegs_eq_nil]) _
  | .newtypeVariant parent => fun _ => by
      cases parent <;>
        first
          | rfl
          | exact render_step _ (render_data _ (by simp)) (by simp [charSegs_eq_nil]) _

theorem seg_split :
    ∀ s1 s2 t1 t2 : List Char, '.' ∉ s1 → '.' ∉ s2 →
      (t1 = [] ∨ ∃ r, t1 = '.' :: r) → (t2 = [] ∨ ∃ r, t2 = '.' :: r) →
      s1 ++ t1 = s2 ++ t2 → s1 = s2 ∧ t1 = t2 := by
  intro s1
  induction s1 with
  | nil =>
    intro s2 t1 t2 h1 h2 ht1 ht2 heq
    cases s2 with
    | nil => exact ⟨rfl, heq⟩
    | cons c s2t =>
      rcases ht1 with h | ⟨r, hr⟩
      · rw [h] at heq
        simp at heq
      · rw [hr] at heq
        simp only [List.nil_append, List.cons_append, List.cons.injEq] at heq
        exact absurd (heq.1 ▸ List.mem_cons_self c s2t) (heq.1 ▸ h2)
  | cons c s1t ih =>
    intro s2 t1 t2 h1 h2 ht1 ht2 heq
    cases s2 with
    | nil =>
      rcases ht2 with h | ⟨r, hr⟩
      · rw [h] at heq
        simp at heq
      · rw [hr] at heq
        simp only [List.nil_append, List.cons_append, List.cons.injEq] at heq
        exact absurd (heq.1 ▸ List.mem_cons_self c s1t) (by rw [heq.1] at h1; exact h1)
    | cons d s2t =>
      simp only [List.cons_append, List.cons.injEq] at heq
      obtain ⟨hcd, hrest⟩ := heq
      have hs1 : '.' ∉ s1t := fun hc => h1 (List.mem_cons_of_mem c hc)
      have hs2 : '.' ∉ s2t := fun hc => h2 (List.mem_cons_of_mem d hc)
      obtain ⟨he, hte⟩ := ih s2t t1 t2 hs1 hs2 ht1 ht2 hrest
      exact ⟨by rw [hcd, he], hte⟩

theorem joinSegs_inj :
    ∀ a b : List (List Char),
      (∀ s ∈ a, s ≠ [] ∧ '.' ∉ s) → (∀ s ∈ b, s ≠ [] ∧ '.' ∉ s) →
      joinSegs a = joinSegs b → a = b := by
  intro a
  induction a with
  | nil =>
    intro b ha hb h
    cases b with
    | nil => rfl
    | cons s b2 =>
      exfalso
      rw [joinSegs_cons] at h
      obtain ⟨hs, -⟩ := hb s (List.mem_cons_self s b2)
      cases s with
      | nil => exact hs rfl
      | cons c s2 => simp [joinSegs] at h
  | cons s a2 ih =>
    intro b ha hb h
    cases b with
    | nil =>
      exfalso
      rw [joinSegs_cons] at h
      obtain ⟨hs, -⟩ := ha s (List.mem_cons_self s a2)
      cases s with
      | nil => exact hs rfl
      | cons c s2 => simp [joinSegs] at h
    | cons t b2 =>
      rw [joinSegs_cons, joinSegs_cons] at h
      have hsplit := seg_split s t _ _ (ha s (List.mem_cons_self s a2)).2
        (hb t (List.mem_cons_self t b2)).2
        (by by_cases h2 : a2 = [] <;> simp [h2])
        (by by_cases h2 : b2 = [] <;> simp [h2]) h
      obtain ⟨hst, htail⟩ := hsplit
      by_cases ha2 : a2 = [] <;> by_cases hb2 : b2 = []
      · rw [hst, ha2, hb2]
      · rw [if_pos ha2, if_neg hb2] at htail
        exact absurd htail.symm (by simp)
      · rw [if_neg ha2, if_pos hb2] at htail
        exact absurd htail (by simp)
      · rw [if_neg ha2, if_neg hb2] at htail
        have : a2 = b2 := by
          apply ih b2 (fun x hx => ha x (List.mem_cons_of_mem s hx))
            (fun x hx => hb x (List.mem_cons_of_mem t hx))
          simpa using htail
        rw [hst, this]

/-- First value bound to string key `key` among the entries of a document
object (document object keys are strings; entries with non-string keys are
not addressable). -/
def findKey : List (SValue × SValue) → String → Option SValue
  | [], _ => Option.none
  | (k, v) :: rest, key =>
      match k with
      | .sstr s => if s = key then Option.some v else findKey rest key
      | _ => findKey rest key

/-- The document node a path addresses, if any: `Root` addresses the whole
document, `Seq { p, i }` the `i`-th element of the array at `p`,
`Map { p, k }` the value bound to string key `k` of the object at `p`.
The `Some`/`NewtypeStruct`/`NewtypeVariant` constructors are schema-driven
descents, not document-addressable positions. -/
def nodeOf : DocPath → SValue → Option SValue
  | .root, d => Option.some d
  | .seq p i, d =>
      match nodeOf p d with
      | Option.some (.sseq xs) => xs[i]?
      | _ => Option.none
  | .map p k, d =>
      match nodeOf p d with
      | Option.some (.smap kvs) => findKey kvs k
      | _ => Option.none
  | .some _, _ => Option.none
  | .newtypeStruct _, _ => Option.none
  | .newtypeVariant _, _ => Option.none

mutual

/-- All object keys occurring anywhere in a document. -/
def docKeys : SValue → List String
  | .ssome v => docKeys v
  | .snewtype v => docKeys v
  | .sseq xs => docKeysSeq xs
  | .smap kvs => docKeysMap kvs
  | _ => []

/-- Keys of all elements of an array. -/
def docKeysSeq : List SValue → List String
  | [] => []
  | x :: xs => docKeys x ++ docKeysSeq xs

/-- Keys of an object: the string keys of its entries plus all keys inside
the entry values. -/
def docKeysMap : List (SValue × SValue) → List String
  | [] => []
  | (k, v) :: kvs =>
      (match k with | .sstr s => [s] | _ => []) ++ docKeys v ++ docKeysMap kvs

end

theorem findKey_mem :
    ∀ (kvs : List (SValue × SValue)) (k : String) (v : SValue),
      findKey kvs k = Option.some v →
      k ∈ docKeysMap kvs ∧ ∀ s ∈ docKeys v, s ∈ docKeysMap kvs := by
  intro kvs
  induction kvs with
  | nil => intro k v h; exact absurd h (by simp [findKey])
  | cons kv rest ih =>
    obtain ⟨kk, vv⟩ := kv
    intro k v h
    cases kk with
    | sstr s =>
      by_cases hs : s = k
      · subst hs
        rw [findKey, if_pos rfl] at h
        cases h
        constructor
        · simp [docKeysMap]
        · intro x hx
          simp [docKeysMap]
          exact Or.inr (Or.inl hx)
      · rw [findKey, if_neg hs] at h
        obtain ⟨h1, h2⟩ := ih k v h
        constructor
        · simp [docKeysMap]
          tauto
        · intro x hx
          simp [docKeysMap]
          exact Or.inr (Or.inr (h2 x hx))
    | sbool b =>
      simp only [findKey] at h
      obtain ⟨h1, h2⟩ := ih k v h
      refine ⟨by simp [docKeysMap]; tauto, fun x hx => by
        simp [docKeysMap]; exact Or.inr (h2 x hx)⟩
    | si64 n =>
      simp only [findKey] at h
      obtain ⟨h1, h2⟩ := ih k v h
      refine ⟨by simp [docKeysMap]; tauto, fun x hx => by
        simp [docKeysMap]; exact Or.inr (h2 x hx)⟩
    | su64 n =>
      simp only [findKey] at h
      obtain ⟨h1, h2⟩ := ih k v h
      refine ⟨by simp [docKeysMap]; tauto, fun x hx => by
        simp [docKeysMap]; exact Or.inr (h2 x hx)⟩
    | sf64 =>
      simp only [findKey] at h
      obtain ⟨h1, h2⟩ := ih k v h
      refine ⟨by simp [docKeysMap]; tauto, fun x hx => by
        simp [docKeysMap]; exact Or.inr (h2 x hx)⟩
    | snone =>
      simp only [findKey] at h
      obtain ⟨h1, h2⟩ := ih k v h
      refine ⟨by simp [docKeysMap]; tauto, fun x hx => by
        simp [docKeysMap]; exact Or.inr (h2 x hx)⟩
    | ssome w =>
      simp only [findKey] at h
      obtain ⟨h1, h2⟩ := ih k v h
      refine ⟨by simp [docKeysMap]; tauto, fun x hx => by
        simp [docKeysMap]; exact Or.inr (h2 x hx)⟩
    | sunit =>
      simp only [findKey] at h
      obtain ⟨h1, h2⟩ := ih k v h
      refine ⟨by simp [docKeysMap]; tauto, fun x hx => by
        simp [docKeysMap]; exact Or.inr (h2 x hx)⟩
    | snewtype w =>
      simp only [findKey] at h
      obtain ⟨h1, h2⟩ := ih k v h
      refine ⟨by simp [docKeysMap]; tauto, fun x hx => by
        simp [docKeysMap]; exact Or.inr (h2 x hx)⟩
    | sseq xs =>
      simp only [findKey] at h
      obtain ⟨h1, h2⟩ := ih k v h
      refine ⟨by simp [docKeysMap]; tauto, fun x hx => by
        simp [docKeysMap]; exact Or.inr (h2 x hx)⟩
    | smap m =>
      simp only [findKey] at h
      obtain ⟨h1, h2⟩ := ih k v h
      refine ⟨by simp [docKeysMap]; tauto, fun x hx => by
        simp [docKeysMap]; exact Or.inr (h2 x hx)⟩
    | sbytes bs =>
      simp only [findKey] at h
      obtain ⟨h1, h2⟩ := ih k v h
      refine ⟨by simp [docKeysMap]; tauto, fun x hx => by
        simp [docKeysMap]; exact Or.inr (h2 x hx)⟩

theorem docKeysSeq_sub :
    ∀ (xs : List SValue) (v : SValue), v ∈ xs →
      ∀ s ∈ docKeys v, s ∈ docKeysSeq xs := by
  intro xs
  induction xs with
  | nil => intro v hv; exact absurd hv (by simp)
  | cons x xs ih =>
    intro v hv s hs
    rcases List.mem_cons.mp hv with h | h
    · subst h
      simp [docKeysSeq]
      exact Or.inl hs
    · simp [docKeysSeq]
      exact Or.inr (ih v h s hs)

theorem append_singleton_inj {α : Type} {a b : List α} {x y : α}
    (h : a ++ [x] = b ++ [y]) : a = b ∧ x = y := by
  have h2 := List.append_inj' h rfl
  exact ⟨h2.1, by simpa using h2.2⟩

theorem nodeOf_seq_inv (q : DocPath) (i : Nat) (d : SValue)
    (h : nodeOf (.seq q i) d ≠ Option.none) :
    ∃ xs, nodeOf q d = Option.some (.sseq xs) ∧ ∃ v, xs[i]? = Option.some v := by
  cases hq : nodeOf q d with
  | none => exact absurd (by simp [nodeOf, hq]) h
  | some w =>
    cases w
    case sseq xs =>
      have h2 : xs[i]? ≠ Option.none := by
        intro hc
        exact h (by simp [nodeOf, hq, hc])
      obtain ⟨v, hv⟩ := Option.ne_none_iff_exists'.mp h2
      exact ⟨xs, rfl, v, hv⟩
    all_goals exact absurd (by simp [nodeOf, hq]) h

theorem nodeOf_map_inv (q : DocPath) (k : String) (d : SValue)
    (h : nodeOf (.map q k) d ≠ Option.none) :
    ∃ kvs, nodeOf q d = Option.some (.smap kvs) ∧ ∃ v, findKey kvs k = Option.some v := by
  cases hq : nodeOf q d with
  | none => exact absurd (by simp [nodeOf, hq]) h
  | some w =>
    cases w
    case smap kvs =>
      have h2 : findKey kvs k ≠ Option.none := by
        intro hc
        exact h (by simp [nodeOf, hq, hc])
      obtain ⟨v, hv⟩ := Option.ne_none_iff_exists'.mp h2
      exact ⟨kvs, rfl, v, hv⟩
    all_goals exact absurd (by simp [nodeOf, hq]) h

theorem nodeOf_keys :
    ∀ (p : DocPath) (d v : SValue), nodeOf p d = Option.some v →
      ∀ s ∈ docKeys v, s ∈ docKeys d := by
  intro p
  induction p with
  | root =>
    intro d v h s hs
    cases h
    exact hs
  | seq q i ih =>
    intro d v h s hs
    have hne : nodeOf (.seq q i) d ≠ Option.none := by rw [h]; simp
    obtain ⟨xs, hq, v2, hv2⟩ := nodeOf_seq_inv q i d hne
    have hv : xs[i]? = Option.some v := by
      have := h
      simp only [nodeOf, hq] at this
      exact this
    have hmem : v ∈ xs := List.getElem?_mem hv
    exact ih d (.sseq xs) hq s (by
      simpa [docKeys] using docKeysSeq_sub xs v hmem s hs)
  | map q k ih =>
    intro d v h s hs
    have hne : nodeOf (.map q k) d ≠ Option.none := by rw [h]; simp
    obtain ⟨kvs, hq, v2, hv2⟩ := nodeOf_map_inv q k d hne
    have hv : findKey kvs k = Option.some v := by
      have := h
      simp only [nodeOf, hq] at this
      exact this
    exact ih d (.smap kvs) hq s (by
      simpa [docKeys] using (findKey_mem kvs k v hv).2 s hs)
  | some q ih => intro d v h; exact absurd h (by simp [nodeOf])
  | newtypeStruct q ih => intro d v h; exact absurd h (by simp [nodeOf])
  | newtypeVariant q ih => intro d v h; exact absurd h (by simp [nodeOf])

theorem nodeOf_map_key_mem (q : DocPath) (k : String) (d : SValue)
    (h : nodeOf (.map q k) d ≠ Option.none) : k ∈ docKeys d := by
  obtain ⟨kvs, hq, v, hv⟩ := nodeOf_map_inv q k d h
  exact nodeOf_keys q d (.smap kvs) hq k (by
    simpa [docKeys] using (findKey_mem kvs k v hv).1)

theorem charSegs_ok (d : SValue)
    (hkeys : ∀ k ∈ docKeys d, k ≠ "" ∧ '.' ∉ k.data) :
    ∀ p : DocPath, nodeOf p d ≠ Option.none →
      ∀ s ∈ charSegs p, s ≠ [] ∧ '.' ∉ s := by
  intro p
  induction p with
  | root => intro _ s hs; exact absurd hs (by simp [charSegs])
  | seq q i ih =>
    intro h s hs
    obtain ⟨xs, hq, v, hv⟩ := nodeOf_seq_inv q i d h
    have hqne : nodeOf q d ≠ Option.none := by rw [hq]; simp
    simp only [charSegs, List.mem_append, List.mem_singleton] at hs
    rcases hs with hs | hs
    · exact ih hqne s hs
    · subst hs
      exact ⟨toDigits_ne_nil i, toDigits_no_dot i⟩
  | map q k ih =>
    intro h s hs
    have hqne : nodeOf q d ≠ Option.none := by
      obtain ⟨kvs, hq, v, hv⟩ := nodeOf_map_inv q k d h
      rw [hq]; simp
    simp only [charSegs, List.mem_append, List.mem_singleton] at hs
    rcases hs with hs | hs
    · exact ih hqne s hs
    · subst hs
      have hk := hkeys k (nodeOf_map_key_mem q k d h)
      exact ⟨fun hc => hk.1 (string_mk_eq k "" hc), hk.2⟩
  | some q ih => intro h; exact absurd rfl h
  | newtypeStruct q ih => intro h; exact absurd rfl h
  | newtypeVariant q ih => intro h; exact absurd rfl h

theorem charSegs_inj (d : SValue) :
    ∀ p1 p2 : DocPath, nodeOf p1 d ≠ Option.none → nodeOf p2 d ≠ Option.none →
      charSegs p1 = charSegs p2 → p1 = p2 := by
  intro p1
  induction p1 with
  | root =>
    intro p2 h1 h2 h
    exact ((charSegs_eq_nil p2).mp h.symm).symm
  | seq q1 i ih =>
    intro p2 h1 h2 h
    obtain ⟨xs1, hq1, v1, hv1⟩ := nodeOf_seq_inv q1 i d h1
    have hq1ne : nodeOf q1 d ≠ Option.none := by rw [hq1]; simp
    cases p2 with
    | root => exact absurd ((charSegs_eq_nil (.seq q1 i)).mp h) (by simp)
    | seq q2 j =>
      simp only [charSegs] at h
      obtain ⟨hq, hx⟩ := append_singleton_inj h
      obtain ⟨xs2, hq2, v2, hv2⟩ := nodeOf_seq_inv q2 j d h2
      have hq2ne : nodeOf q2 d ≠ Option.none := by rw [hq2]; simp
      rw [ih q2 hq1ne hq2ne hq, toDigits_inj i j hx]
    | map q2 k2 =>
      exfalso
      simp only [charSegs] at h
      obtain ⟨hq, hx⟩ := append_singleton_inj h
      obtain ⟨kvs2, hq2, v2, hv2⟩ := nodeOf_map_inv q2 k2 d h2
      have hq2ne : nodeOf q2 d ≠ Option.none := by rw [hq2]; simp
      rw [ih q2 hq1ne hq2ne hq] at hq1
      rw [hq1] at hq2
      exact SValue.noConfusion (Option.some.inj hq2)
    | some q2 => exact absurd rfl h2
    | newtypeStruct q2 => exact absurd rfl h2
    | newtypeVariant q2 => exact absurd rfl h2
  | map q1 k1 ih =>
    intro p2 h1 h2 h
    obtain ⟨kvs1, hq1, v1, hv1⟩ := nodeOf_map_inv q1 k1 d h1
    have hq1ne : nodeOf q1 d ≠ Option.none := by rw [hq1]; simp
    cases p2 with
    | root => exact absurd ((charSegs_eq_nil (.map q1 k1)).mp h) (by simp)
    | seq q2 j =>
      exfalso
      simp only [charSegs] at h
      obtain ⟨hq, hx⟩ := append_singleton_inj h
      obtain ⟨xs2, hq2, v2, hv2⟩ := nodeOf_seq_inv q2 j d h2
      have hq2ne : nodeOf q2 d ≠ Option.none := by rw [hq2]; simp
      rw [ih q2 hq1ne hq2ne hq] at hq1
      rw [hq1] at hq2
      exact SValue.noConfusion (Option.some.inj hq2)
    | map q2 k2 =>
      simp only [charSegs] at h
      obtain ⟨hq, hx⟩ := append_singleton_inj h
      obtain ⟨kvs2, hq2, v2, hv2⟩ := nodeOf_map_inv q2 k2 d h2
      have hq2ne : nodeOf q2 d ≠ Option.none := by rw [hq2]; simp
      rw [ih q2 hq1ne hq2ne hq, string_mk_eq k1 k2 hx]
    | some q2 => exact absurd rfl h2
    | newtypeStruct q2 => exact absurd rfl h2
    | newtypeVariant q2 => exact absurd rfl h2
  | some q1 ih => intro p2 h1; exact absurd rfl h1
  | newtypeStruct q1 ih => intro p2 h1; exact absurd rfl h1
  | newtypeVariant q1 ih => intro p2 h1; exact absurd rfl h1

theorem render_ne_root (d : SValue)
    (hkeys : ∀ k ∈ docKeys d, k ≠ "" ∧ '.' ∉ k.data)
    (p : DocPath) (hp : nodeOf p d ≠ Option.none) (hne : p ≠ .root) :
    DocPath.render p ≠ DocPath.render .root := by
  intro hr
  have hd := congrArg String.data hr
  rw [render_data p hne] at hd
  obtain ⟨s, rest, hsc⟩ : ∃ s rest, charSegs p = s :: rest := by
    cases hc : charSegs p with
    | nil => exact absurd ((charSegs_eq_nil p).mp hc) hne
    | cons s rest => exact ⟨s, rest, rfl⟩
  rw [hsc, joinSegs_cons] at hd
  have hs := charSegs_ok d hkeys p hp s (by rw [hsc]; exact List.mem_cons_self s rest)
  cases s with
  | nil => exact hs.1 rfl
  | cons c s2 =>
    rw [show (DocPath.render .root).data = ['.'] from rfl] at hd
    simp only [List.cons_append, List.cons.injEq] at hd
    exact hs.2 (by rw [hd.1]; exact List.mem_cons_self '.' s2)

/-- The document `{"a.b": null, "a": {"b": null}}` whose two distinct
positions `Map{Root, "a.b"}` and `Map{Map{Root, "a"}, "b"}` render to the
same string. -/
def collidingDoc : SValue :=
  .smap [(.sstr "a.b", .sunit), (.sstr "a", .smap [(.sstr "b", .sunit)])]

/-- C5 counterexample: path rendering is not injective over the distinct
positions of one document: in `{"a.b": null, "a": {"b": null}}` the two
distinct positions `Map{Root, "a.b"}` and `Map{Map{Root, "a"}, "b"}` both
render to `"a.b"`. -/
theorem C5_counterexample :
    nodeOf (.map .root "a.b") collidingDoc ≠ Option.none
    ∧ nodeOf (.map (.map .root "a") "b") collidingDoc ≠ Option.none
    ∧ DocPath.map .root "a.b" ≠ DocPath.map (.map .root "a") "b"
    ∧ DocPath.render (.map .root "a.b") = DocPath.render (.map (.map .root "a") "b") :=
  ⟨fun hc => Option.noConfusion hc, fun hc => Option.noConfusion hc, by decide, by decide⟩

/-- C5 amended: path rendering is deterministic (a pure function of the
path), and over the document-addressable positions of one document all of
whose object keys are nonempty and free of the `'.'` separator it is
injective: two distinct such positions never render to the same string.
Keys containing the separator (or empty keys) can collide, as the
counterexample document shows. -/
theorem C5_amended_render_injective (d : SValue) (p1 p2 : DocPath)
    (hkeys : ∀ k ∈ docKeys d, k ≠ "" ∧ '.' ∉ k.data)
    (h1 : nodeOf p1 d ≠ Option.none) (h2 : nodeOf p2 d ≠ Option.none)
    (hr : DocPath.render p1 = DocPath.render p2) : p1 = p2 := by
  by_cases e1 : p1 = .root <;> by_cases e2 : p2 = .root
  · rw [e1, e2]
  · exfalso
    subst e1
    exact render_ne_root d hkeys p2 h2 e2 hr.symm
  · exfalso
    subst e2
    exact render_ne_root d hkeys p1 h1 e1 hr
  · have hd := congrArg String.data hr
    rw [render_data p1 e1, render_data p2 e2] at hd
    exact charSegs_inj d p1 p2 h1 h2
      (joinSegs_inj (charSegs p1) (charSegs p2)
        (charSegs_ok d hkeys p1 h1) (charSegs_ok d hkeys p2 h2) hd)

theorem C5_witness :
    DocPath.map .root "a" = DocPath.map .root "a" :=
  C5_amended_render_injective (.smap [(.sstr "a", .sunit)])
    (.map .root "a") (.map .root "a")
    (by decide) (fun hc => Option.noConfusion hc) (fun hc => Option.noConfusion hc) rfl
